import Mathlib

/-!
Verification of the font-embedding core of `pdf_writer_font_embed`
(src/main.rs) against its natural-language specification.

The source is a single Rust program that turns a parsed font and a text
string into the data structures a PDF consumer needs: a glyph set with
first-seen characters, a run-length-encoded width table, a reverse
Unicode CMap, a subset tag, and derived font-descriptor metrics.  Here we
shallowly embed those computations as Lean functions (machine floats that
are only ever compared for equality are modelled as exact rationals;
fallible collaborator calls are modelled as `Option`/`Except`) and settle
the specification's claims about them.
-/

set_option autoImplicit false

namespace PdfFontEmbed

/-! ## Width-run encoder (src/main.rs lines 129-143)

The Rust code scans the dense width array `widths` once:

```
let mut start = 0;
let mut start_width = widths[0];
for (i, w) in widths.iter().enumerate().skip(1) {
    if *w != start_width || i == widths.len() - 1 {
        if start_width != 0.0 {
            width_writer.same(start as u16, i as u16, start_width);
        }
        start = i as i32;
        start_width = *w;
    }
}
```

`Widths::same(first, last, w)` records one run covering CIDs
`first..=last` inclusive.  Widths are `f32` values that the algorithm
only compares for equality, so we model them as `ℚ`.
-/

/-- A width run `(start, stop, width)`: glyph ids `start..=stop`
(inclusive, `end` in the spec's words) declared to share `width`. -/
structure WidthRun where
  start : Nat
  stop : Nat
  width : ℚ
deriving DecidableEq, Repr

/-- One iteration of the Rust loop body at index `i`, acting on the state
`(start, start_width, emitted runs)`. -/
def encodeStep (widths : List ℚ) (n : Nat) (st : Nat × ℚ × List WidthRun)
    (i : Nat) : Nat × ℚ × List WidthRun :=
  let w := widths.getD i 0
  if w ≠ st.2.1 ∨ i = n - 1 then
    (i, w, st.2.2 ++ if st.2.1 ≠ 0 then [⟨st.1, i, st.2.1⟩] else [])
  else st

/-- The width-run encoder of src/main.rs lines 129-143: fold the loop body
over indices `1, …, len-1` starting from `(0, widths[0], [])`.  (The Rust
code indexes `widths[0]` unconditionally; the empty case is unreachable
there because a parsed font has at least the `.notdef` glyph.) -/
def encodeWidths (widths : List ℚ) : List WidthRun :=
  match widths with
  | [] => []
  | w0 :: _ =>
    (((List.range widths.length).drop 1).foldl
      (encodeStep widths widths.length) (0, w0, [])).2.2

/-- Decoder used by the spec's round-trip law: start from the all-zero
dense array of length `n` and write each run's width over its inclusive
range, in emission order. -/
def decodeRuns (n : Nat) (runs : List WidthRun) : List ℚ :=
  runs.foldl
    (fun arr r =>
      (List.range n).map fun i =>
        if r.start ≤ i ∧ i ≤ r.stop then r.width else arr.getD i 0)
    (List.replicate n 0)

/-- The invariant claimed for the emitted runs: pairwise non-overlapping
and ascending (every run ends strictly before the next starts), every
emitted width non-zero, and every glyph id inside a run has exactly that
run's width in the input array. -/
def runsWellFormed (widths : List ℚ) (runs : List WidthRun) : Prop :=
  List.Pairwise (fun r₁ r₂ => r₁.stop < r₂.start) runs ∧
  (∀ r ∈ runs, r.width ≠ 0) ∧
  ∀ r ∈ runs, ∀ i, i ≤ r.stop → r.start ≤ i → widths.getD i 0 = r.width

instance (widths : List ℚ) (runs : List WidthRun) :
    Decidable (runsWellFormed widths runs) := by
  unfold runsWellFormed
  exact instDecidableAnd

/-- C1: the encoder run on `[0, 600, 0]` emits the single run
`(1, 2, 600)`, whose inclusive end index 2 has width `0`, not `600`;
decoding therefore yields `[0, 600, 600]`, not the original array. -/
theorem encode_decode_roundtrip_fails :
    encodeWidths [0, 600, 0] = [⟨1, 2, 600⟩] ∧
    decodeRuns 3 (encodeWidths [0, 600, 0]) = [0, 600, 600] ∧
    decodeRuns 3 (encodeWidths [0, 600, 0]) ≠ [0, 600, 0] := by
  refine ⟨by decide, by decide, by decide⟩

/-- C2: on the spec's scenario array (glyph 5 has width 600, glyph 9 and
all others width 0, ten glyphs) the encoder emits exactly one run, but it
is `(5, 6, 600)` — covering glyph 6 of width 0 — and not the claimed
`(5, 5, 600)`. -/
theorem scenario_run_is_5_6_not_5_5 :
    encodeWidths [0, 0, 0, 0, 0, 600, 0, 0, 0, 0] = [⟨5, 6, 600⟩] ∧
    (⟨5, 5, 600⟩ : WidthRun) ∉ encodeWidths [0, 0, 0, 0, 0, 600, 0, 0, 0, 0] := by
  refine ⟨by decide, by decide⟩

/-- C3: on the input `[1, 2, 3]` the encoder emits the runs
`(0, 1, 1)` and `(1, 2, 2)`, which overlap at glyph id 1 (and glyph 1
inside the first run has width 2, not 1), so the claimed run invariant
fails. -/
theorem encoded_runs_violate_invariant :
    encodeWidths [1, 2, 3] = [⟨0, 1, 1⟩, ⟨1, 2, 2⟩] ∧
    ¬ runsWellFormed [1, 2, 3] (encodeWidths [1, 2, 3]) := by
  refine ⟨by decide, by decide⟩

/-! ## Font-descriptor metrics (src/main.rs lines 163-166)

```
let ascender = to_font_units(ttf.typographic_ascender().unwrap_or(ttf.ascender()).into());
let descender = to_font_units(ttf.typographic_descender().unwrap_or(ttf.descender()).into());
let cap_height = to_font_units(ttf.capital_height().unwrap_or(ttf.ascender()).into());
```

The `ttf_parser::Face` collaborator supplies the raw metrics; we model the
slice of it the code reads.  `to_font_units` (line 48) is
`v / units_per_em * 1000`, over exact rationals here.
-/

/-- The metrics the code reads from the parsed font: generic ascender and
descender are always available, the typographic variants and the capital
height are optional. -/
structure FontFace where
  units_per_em : Nat
  ascender : Int
  descender : Int
  typographic_ascender : Option Int
  typographic_descender : Option Int
  capital_height : Option Int
deriving DecidableEq, Repr

/-- `to_font_units` (src/main.rs line 48): convert a raw font-unit value
to PDF units, `v / units_per_em * 1000`. -/
def to_font_units (upm : Nat) (v : Int) : ℚ :=
  (v : ℚ) / (upm : ℚ) * 1000

/-- The descriptor's `Ascent` (line 164): typographic ascender, falling
back to the generic ascender. -/
def derived_ascender (f : FontFace) : ℚ :=
  to_font_units f.units_per_em (f.typographic_ascender.getD f.ascender)

/-- The descriptor's `Descent` (line 165): typographic descender, falling
back to the generic descender. -/
def derived_descender (f : FontFace) : ℚ :=
  to_font_units f.units_per_em (f.typographic_descender.getD f.descender)

/-- The descriptor's `CapHeight` (line 166): capital height, falling back
to the generic ascender. -/
def derived_cap_height (f : FontFace) : ℚ :=
  to_font_units f.units_per_em (f.capital_height.getD f.ascender)

/-- A concrete face with no typographic metrics available, whose generic
ascender (800) and descender (-200) differ. -/
def faceNoTypo : FontFace :=
  { units_per_em := 1000
    ascender := 800
    descender := -200
    typographic_ascender := none
    typographic_descender := none
    capital_height := none }

/-- C4, counterexample: on `faceNoTypo` the claim says the descender
metric falls back to the generic ascender value (800 PDF units), but the
code falls back to the generic descender and produces -200. -/
theorem descender_fallback_not_ascender :
    derived_descender faceNoTypo = -200 ∧
    to_font_units faceNoTypo.units_per_em faceNoTypo.ascender = 800 ∧
    derived_descender faceNoTypo ≠
      to_font_units faceNoTypo.units_per_em faceNoTypo.ascender := by
  refine ⟨by norm_num [derived_descender, faceNoTypo, to_font_units],
    by norm_num [faceNoTypo, to_font_units],
    by norm_num [derived_descender, faceNoTypo, to_font_units]⟩

/-- C4, amended: each metric uses its typographic-specific value directly
when available; when unavailable, cap height and ascender fall back to
the generic ascender while the descender falls back to the generic
descender, and no fallback ever fails. -/
theorem metric_fallbacks (f : FontFace) :
    (∀ v, f.typographic_ascender = some v →
      derived_ascender f = to_font_units f.units_per_em v) ∧
    (f.typographic_ascender = none →
      derived_ascender f = to_font_units f.units_per_em f.ascender) ∧
    (∀ v, f.typographic_descender = some v →
      derived_descender f = to_font_units f.units_per_em v) ∧
    (f.typographic_descender = none →
      derived_descender f = to_font_units f.units_per_em f.descender) ∧
    (∀ v, f.capital_height = some v →
      derived_cap_height f = to_font_units f.units_per_em v) ∧
    (f.capital_height = none →
      derived_cap_height f = to_font_units f.units_per_em f.ascender) := by
  refine ⟨fun v hv => ?_, fun hv => ?_, fun v hv => ?_, fun hv => ?_,
    fun v hv => ?_, fun hv => ?_⟩ <;>
    simp [derived_ascender, derived_descender, derived_cap_height, hv]

/-- C4 witness: the amended fallbacks evaluated on `faceNoTypo`. -/
theorem metric_fallbacks_witness :
    derived_ascender faceNoTypo = to_font_units 1000 800 ∧
    derived_descender faceNoTypo = to_font_units 1000 (-200) ∧
    derived_cap_height faceNoTypo = to_font_units 1000 800 :=
  ⟨(metric_fallbacks faceNoTypo).2.1 rfl,
   (metric_fallbacks faceNoTypo).2.2.2.1 rfl,
   (metric_fallbacks faceNoTypo).2.2.2.2.2 rfl⟩

/-! ## Glyph mapping (src/main.rs lines 53-61)

```
let message_glyphs: Vec<_> =
    message.chars().map(|ch| ttf.glyph_index(ch).unwrap().0).collect();

let mut glyph_set: BTreeMap<u16, String> = BTreeMap::new();
for ch in message.chars() {
    let Some(glyph) = ttf.glyph_index(ch) else { continue };
    glyph_set.entry(glyph.0).or_insert_with(|| ch.to_string());
}
```

`ttf.glyph_index` is the external glyph-lookup collaborator, modelled as
an arbitrary `Char → Option Nat`.  The `unwrap` panic on an unmappable
character is the spec's `UnmappableCharacter` failure, modelled with
`Except Char`.  The `BTreeMap` is modelled as an association list kept
sorted by key, with `entry(..).or_insert_with(..)` as sorted
insert-if-absent. -/

/-- The display glyph sequence of line 54: one glyph id per character of
the text, failing with the offending character (the `unwrap` panic /
`UnmappableCharacter`) at the first character with no glyph. -/
def message_glyphs (lookup : Char → Option Nat) : List Char → Except Char (List Nat)
  | [] => .ok []
  | ch :: rest =>
    match lookup ch with
    | none => .error ch
    | some g =>
      match message_glyphs lookup rest with
      | .error e => .error e
      | .ok gs => .ok (g :: gs)

/-- `BTreeMap::entry(k).or_insert_with(|| v)` on a key-sorted association
list: insert `(k, v)` at its sorted position unless `k` is already
present, in which case the map is unchanged. -/
def insertIfAbsent (k : Nat) (v : String) : List (Nat × String) → List (Nat × String)
  | [] => [(k, v)]
  | (a, b) :: rest =>
    if k < a then (k, v) :: (a, b) :: rest
    else if k = a then (a, b) :: rest
    else (a, b) :: insertIfAbsent k v rest

/-- The glyph-set loop of lines 57-61, processing the text left to right
while threading the map. -/
def buildGlyphSetAux (lookup : Char → Option Nat) :
    List Char → List (Nat × String) → List (Nat × String)
  | [], m => m
  | ch :: rest, m =>
    match lookup ch with
    | none => buildGlyphSetAux lookup rest m
    | some g => buildGlyphSetAux lookup rest (insertIfAbsent g (String.singleton ch) m)

/-- The glyph set built from a text: the `BTreeMap` contents, as a
key-sorted association list. -/
def buildGlyphSet (lookup : Char → Option Nat) (text : List Char) :
    List (Nat × String) :=
  buildGlyphSetAux lookup text []

/-- Keys strictly ascend along the association list (the `BTreeMap`
iteration-order invariant). -/
def keysSorted (m : List (Nat × String)) : Prop :=
  List.Pairwise (fun p q => p.1 < q.1) m

theorem mem_insertIfAbsent {k : Nat} {v : String} {m : List (Nat × String)}
    {q : Nat × String} (h : q ∈ insertIfAbsent k v m) : q = (k, v) ∨ q ∈ m := by
  induction m with
  | nil => simpa [insertIfAbsent] using h
  | cons p rest ih =>
    obtain ⟨a, b⟩ := p
    simp only [insertIfAbsent] at h
    split at h
    · simpa using h
    · split at h
      · simp [h]
      · rcases List.mem_cons.mp h with h' | h'
        · simp [h']
        · rcases ih h' with h'' | h''
          · exact Or.inl h''
          · exact Or.inr (List.mem_cons_of_mem _ h'')

theorem keysSorted_insertIfAbsent {k : Nat} {v : String}
    {m : List (Nat × String)} (hs : keysSorted m) :
    keysSorted (insertIfAbsent k v m) := by
  induction m with
  | nil => simp [insertIfAbsent, keysSorted]
  | cons p rest ih =>
    obtain ⟨a, b⟩ := p
    rw [keysSorted, List.pairwise_cons] at hs
    obtain ⟨h1, h2⟩ := hs
    simp only [insertIfAbsent]
    split
    · rename_i hlt
      refine List.Pairwise.cons ?_ (List.Pairwise.cons h1 h2)
      intro q hq
      rcases List.mem_cons.mp hq with h' | h'
      · simp [h', hlt]
      · exact lt_trans hlt (h1 q h')
    · split
      · exact List.Pairwise.cons h1 h2
      · rename_i hnlt hne
        refine List.Pairwise.cons ?_ (ih h2)
        intro q hq
        rcases mem_insertIfAbsent hq with h' | h'
        · subst h'; omega
        · exact h1 q h'

theorem lookup_nil (k : Nat) : List.lookup k ([] : List (Nat × String)) = none := rfl

theorem lookup_cons (k a : Nat) (b : String) (rest : List (Nat × String)) :
    List.lookup k ((a, b) :: rest) = if k = a then some b else List.lookup k rest := by
  by_cases h : k = a
  · subst h; simp [List.lookup]
  · simp [List.lookup, beq_false_of_ne h, h]

theorem lookup_eq_none_of_forall {k : Nat} {m : List (Nat × String)}
    (h : ∀ p ∈ m, k ≠ p.1) : List.lookup k m = none := by
  induction m with
  | nil => rfl
  | cons p rest ih =>
    obtain ⟨a, b⟩ := p
    have hka : k ≠ a := h (a, b) (List.mem_cons_self _ _)
    rw [lookup_cons, if_neg hka]
    exact ih fun q hq => h q (List.mem_cons_of_mem _ hq)

theorem lookup_insertIfAbsent_self {k : Nat} {v : String}
    {m : List (Nat × String)} (hs : keysSorted m) :
    List.lookup k (insertIfAbsent k v m) = some ((List.lookup k m).getD v) := by
  induction m with
  | nil => simp [insertIfAbsent, lookup_cons, lookup_nil]
  | cons p rest ih =>
    obtain ⟨a, b⟩ := p
    rw [keysSorted, List.pairwise_cons] at hs
    obtain ⟨h1, h2⟩ := hs
    by_cases hlt : k < a
    · have hka : k ≠ a := Nat.ne_of_lt hlt
      have hrest : List.lookup k rest = none :=
        lookup_eq_none_of_forall fun q hq => Nat.ne_of_lt (lt_trans hlt (h1 q hq))
      simp [insertIfAbsent, hlt, lookup_cons, hka, hrest]
    · by_cases hka : k = a
      · simp [insertIfAbsent, hlt, hka, lookup_cons]
      · simp [insertIfAbsent, hlt, hka, lookup_cons, ih h2]

theorem lookup_insertIfAbsent_ne {k k' : Nat} {v : String}
    {m : List (Nat × String)} (h : k ≠ k') :
    List.lookup k (insertIfAbsent k' v m) = List.lookup k m := by
  induction m with
  | nil => simp [insertIfAbsent, lookup_cons, lookup_nil, h]
  | cons p rest ih =>
    obtain ⟨a, b⟩ := p
    by_cases hlt : k' < a
    · simp [insertIfAbsent, hlt, lookup_cons, h]
    · by_cases hk'a : k' = a
      · simp [insertIfAbsent, hlt, hk'a]
      · simp [insertIfAbsent, hlt, hk'a, lookup_cons, ih]

theorem keysSorted_buildGlyphSetAux (lookup : Char → Option Nat) :
    ∀ (text : List Char) (m : List (Nat × String)), keysSorted m →
      keysSorted (buildGlyphSetAux lookup text m)
  | [], m, hs => hs
  | ch :: rest, m, hs => by
    simp only [buildGlyphSetAux]
    cases lookup ch with
    | none => exact keysSorted_buildGlyphSetAux lookup rest m hs
    | some g =>
      exact keysSorted_buildGlyphSetAux lookup rest _ (keysSorted_insertIfAbsent hs)

theorem keysSorted_buildGlyphSet (lookup : Char → Option Nat) (text : List Char) :
    keysSorted (buildGlyphSet lookup text) :=
  keysSorted_buildGlyphSetAux lookup text [] (List.Pairwise.nil)

/-- The content of the glyph-set loop: looking up key `k` in the final map
returns whatever the starting map had for `k`, and otherwise the
single-character string of the first character of the text whose glyph is
`k`. -/
theorem lookup_buildGlyphSetAux (lookup : Char → Option Nat) :
    ∀ (text : List Char) (m : List (Nat × String)), keysSorted m → ∀ k,
      List.lookup k (buildGlyphSetAux lookup text m) =
        (List.lookup k m).or
          ((text.find? fun c => lookup c == some k).map String.singleton) := by
  intro text
  induction text with
  | nil =>
    intro m hs k
    simp [buildGlyphSetAux]
  | cons ch rest ih =>
    intro m hs k
    cases hc : lookup ch with
    | none =>
      simp only [buildGlyphSetAux, hc]
      rw [ih m hs k, List.find?_cons_of_neg _ (by simp [hc])]
    | some g =>
      simp only [buildGlyphSetAux, hc]
      by_cases hk : k = g
      · subst hk
        rw [ih _ (keysSorted_insertIfAbsent hs) k, lookup_insertIfAbsent_self hs,
          List.find?_cons_of_pos _ (by simp [hc])]
        cases hm : List.lookup k m <;> simp
      · rw [ih _ (keysSorted_insertIfAbsent hs) k, lookup_insertIfAbsent_ne hk,
          List.find?_cons_of_neg _ (by simp [hc]; exact fun h => hk h.symm)]

theorem lookup_buildGlyphSet (lookup : Char → Option Nat) (text : List Char)
    (k : Nat) :
    List.lookup k (buildGlyphSet lookup text) =
      (text.find? fun c => lookup c == some k).map String.singleton := by
  rw [buildGlyphSet, lookup_buildGlyphSetAux lookup text [] List.Pairwise.nil k,
    lookup_nil]
  rfl

/-- C6: every character of the text contributes exactly one glyph id, in
order and with repetitions (`text.map lookup = gs.map some`), or the
whole operation fails carrying a character of the text that has no glyph;
no character is silently dropped. -/
theorem message_glyphs_total (lookup : Char → Option Nat) (text : List Char) :
    (∃ gs, message_glyphs lookup text = Except.ok gs ∧
      text.map lookup = gs.map some) ∨
    (∃ ch, message_glyphs lookup text = Except.error ch ∧
      ch ∈ text ∧ lookup ch = none) := by
  induction text with
  | nil => exact Or.inl ⟨[], rfl, rfl⟩
  | cons ch rest ih =>
    cases hc : lookup ch with
    | none =>
      exact Or.inr ⟨ch, by simp [message_glyphs, hc], List.mem_cons_self _ _, hc⟩
    | some g =>
      rcases ih with ⟨gs, hok, hmap⟩ | ⟨e, herr, hmem, hnone⟩
      · exact Or.inl ⟨g :: gs, by simp [message_glyphs, hc, hok], by simp [hc, hmap]⟩
      · exact Or.inr ⟨e, by simp [message_glyphs, hc, herr],
          List.mem_cons_of_mem _ hmem, hnone⟩

/-- C7, counterexample to the claim as stated: with a glyph-lookup
function that maps a character to glyph id 0, the constructed glyph set
does contain glyph id 0 — the code never filters it out. -/
theorem glyph_set_contains_zero :
    List.lookup 0 (buildGlyphSet (fun _ => some 0) ['A']) ≠ none := by
  decide

/-- C7, amended: provided the glyph-lookup collaborator never returns
glyph id 0 (0 denotes the missing glyph, and the lookup reports a missing
glyph as `none`), the glyph set contains exactly the glyph ids produced
by some character of the text — hence never id 0 and never an unused
glyph — and maps each glyph id to the single-character string of the
first character in scan order that produced it. -/
theorem glyph_set_spec (lookup : Char → Option Nat) (text : List Char)
    (h0 : ∀ ch, lookup ch ≠ some 0) :
    (∀ k, (List.lookup k (buildGlyphSet lookup text)).isSome ↔
      ∃ ch ∈ text, lookup ch = some k) ∧
    List.lookup 0 (buildGlyphSet lookup text) = none ∧
    (∀ k v, List.lookup k (buildGlyphSet lookup text) = some v →
      ∃ ch, text.find? (fun c => lookup c == some k) = some ch ∧
        v = String.singleton ch) := by
  refine ⟨fun k => ?_, ?_, fun k v hv => ?_⟩
  · rw [lookup_buildGlyphSet]
    have hmap : (Option.map String.singleton
        (List.find? (fun c => lookup c == some k) text)).isSome
        = (List.find? (fun c => lookup c == some k) text).isSome := by
      cases List.find? (fun c => lookup c == some k) text <;> rfl
    rw [hmap, List.find?_isSome]
    simp
  · rw [lookup_buildGlyphSet]
    rw [List.find?_eq_none.mpr fun c _ => by simpa using h0 c]
    rfl
  · rw [lookup_buildGlyphSet] at hv
    rcases Option.map_eq_some'.mp hv with ⟨ch, hfind, hval⟩
    exact ⟨ch, hfind, hval.symm⟩

/-- C7 witness: the amended statement applied to a lookup that sends
every character to glyph 5 on the text `['A', 'B']`; glyph 0 is absent. -/
theorem glyph_set_spec_witness :
    List.lookup 0 (buildGlyphSet (fun _ => some 5) ['A', 'B']) = none :=
  (glyph_set_spec (fun _ => some 5) ['A', 'B'] (fun ch => by simp)).2.1

/-! ## Reverse CMap (src/main.rs lines 227-241)

```
let mut cmap = UnicodeCmap::new(CMAP_NAME, SYSTEM_INFO);
for (&g, text) in glyph_set.iter() {
    if !text.is_empty() {
        cmap.pair_with_multiple(g, text.chars());
    }
}
```

`UnicodeCmap::pair_with_multiple(g, chars)` records the entry
`g ↦ chars`, in call order; we model the accumulated CMap as the list of
entries `(glyph id, code points)` in that order. -/

/-- `create_cmap` (src/main.rs lines 228-241): walk the glyph set in its
(ascending-key) order and record `g ↦ text.chars()` for each non-empty
text fragment. -/
def create_cmap : List (Nat × String) → List (Nat × List Char)
  | [] => []
  | (g, text) :: rest =>
    if text.isEmpty then create_cmap rest
    else (g, text.data) :: create_cmap rest

theorem isEmpty_iff_data (s : String) : s.isEmpty ↔ s.data = [] := by
  rw [String.isEmpty_iff]
  exact ⟨fun h => by rw [h], fun h => String.ext h⟩

theorem create_cmap_eq_filter_map (gs : List (Nat × String)) :
    create_cmap gs =
      (gs.filter fun p => !p.2.isEmpty).map fun p => (p.1, p.2.data) := by
  induction gs with
  | nil => rfl
  | cons p rest ih =>
    obtain ⟨g, text⟩ := p
    by_cases h : text.isEmpty
    · simp [create_cmap, h, ih]
    · simp [create_cmap, h, ih]

/-- C8: for a glyph set whose keys ascend (the `BTreeMap` iteration
order), the reverse CMap holds exactly the entries of the glyph set with
non-empty text, in ascending glyph-id order, each carrying its fragment's
code points in the exact order they occur in the fragment; distinct
glyphs keep their own entries even when their text is identical. -/
theorem create_cmap_spec (gs : List (Nat × String)) (hs : keysSorted gs) :
    List.Pairwise (fun p q => p.1 < q.1) (create_cmap gs) ∧
    ∀ g cs, (g, cs) ∈ create_cmap gs ↔
      ∃ s : String, (g, s) ∈ gs ∧ s.data = cs ∧ cs ≠ [] := by
  constructor
  · rw [create_cmap_eq_filter_map, List.pairwise_map]
    exact (hs.filter _)
  · intro g cs
    rw [create_cmap_eq_filter_map]
    constructor
    · intro h
      rcases List.mem_map.mp h with ⟨p, hp, hpe⟩
      rcases List.mem_filter.mp hp with ⟨hmem, hne⟩
      obtain ⟨a, s⟩ := p
      obtain ⟨rfl, rfl⟩ : a = g ∧ s.data = cs := by
        simpa using hpe
      refine ⟨s, hmem, rfl, ?_⟩
      intro hnil
      rw [Bool.not_eq_true', ← Bool.not_eq_true] at hne
      exact hne ((isEmpty_iff_data s).mpr hnil)
    · rintro ⟨s, hmem, rfl, hne⟩
      refine List.mem_map.mpr ⟨(g, s), List.mem_filter.mpr ⟨hmem, ?_⟩, rfl⟩
      simp only [Bool.not_eq_true']
      rw [← Bool.not_eq_true]
      exact fun h => hne ((isEmpty_iff_data s).mp h)

/-- C8 witness: the CMap of the sorted glyph set
`[(5, "A"), (9, "")]` is ascending (and, by the theorem, drops the
empty-text glyph 9). -/
theorem create_cmap_spec_witness :
    List.Pairwise (fun p q => p.1 < q.1)
      (create_cmap [(5, String.singleton 'A'), (9, "")]) :=
  (create_cmap_spec [(5, String.singleton 'A'), (9, "")] (by simp [keysSorted])).1

/-- Values inserted by the glyph-set loop are always single-character
strings (`ch.to_string()` of one `char`). -/
theorem values_singleton_buildGlyphSetAux (lookup : Char → Option Nat) :
    ∀ (text : List Char) (m : List (Nat × String)),
      (∀ p ∈ m, ∃ ch, p.2 = String.singleton ch) →
      ∀ q ∈ buildGlyphSetAux lookup text m, ∃ ch, q.2 = String.singleton ch
  | [], _, hm => hm
  | ch :: rest, m, hm => by
    simp only [buildGlyphSetAux]
    cases lookup ch with
    | none => exact values_singleton_buildGlyphSetAux lookup rest m hm
    | some g =>
      refine values_singleton_buildGlyphSetAux lookup rest _ fun p hp => ?_
      rcases mem_insertIfAbsent hp with h' | h'
      · exact ⟨ch, by rw [h']⟩
      · exact hm p h'

/-- C10: every text fragment stored in the glyph set is the string of
exactly one character, so every reverse-CMap entry this pipeline builds
carries exactly one code point and the one-to-many (ligature-like)
mapping path is never exercised. -/
theorem ligature_path_unused (lookup : Char → Option Nat) (text : List Char) :
    (∀ p ∈ buildGlyphSet lookup text, ∃ ch, p.2 = String.singleton ch) ∧
    ∀ q ∈ create_cmap (buildGlyphSet lookup text), q.2.length = 1 := by
  have hvals : ∀ p ∈ buildGlyphSet lookup text, ∃ ch, p.2 = String.singleton ch :=
    values_singleton_buildGlyphSetAux lookup text [] (by simp)
  refine ⟨hvals, fun q hq => ?_⟩
  rw [create_cmap_eq_filter_map] at hq
  rcases List.mem_map.mp hq with ⟨p, hp, hpe⟩
  rcases List.mem_filter.mp hp with ⟨hmem, _⟩
  rcases hvals p hmem with ⟨ch, hch⟩
  rw [← hpe]
  simp [hch, String.singleton]

/-- C10 witness: with every character mapped to glyph 7, the glyph set of
`['A', 'B']` stores only one-character fragments and its CMap entries all
carry one code point. -/
theorem ligature_path_unused_witness :
    (∀ p ∈ buildGlyphSet (fun _ => some 7) ['A', 'B'],
      ∃ ch, p.2 = String.singleton ch) ∧
    ∀ q ∈ create_cmap (buildGlyphSet (fun _ => some 7) ['A', 'B']),
      q.2.length = 1 :=
  ligature_path_unused (fun _ => some 7) ['A', 'B']

/-! ## Subset tag (src/main.rs lines 243-261)

```
fn subset_tag(glyphs: &BTreeMap<u16, String>) -> String {
    const LEN: usize = 6;
    const BASE: u128 = 26;
    let mut hash = hash128(glyphs);
    let mut letter = [b'A'; LEN];
    for l in letter.iter_mut() {
        *l = b'A' + (hash % BASE) as u8;
        hash /= BASE;
    }
    std::str::from_utf8(&letter).unwrap().to_string()
}
```

`hash128` feeds the map's contents, in the `BTreeMap`'s ascending-key
iteration order, to the external `SipHasher13` and returns its 128-bit
digest. -/

/-- The byte stream `BTreeMap<u16, String>::hash` feeds to the hasher:
the entry count, then for each entry in ascending-key order the key's two
bytes and the value's characters followed by a terminator. -/
def glyphSetHashInput (gs : List (Nat × String)) : List Nat :=
  gs.length ::
    gs.flatMap fun p => p.1 % 256 :: p.1 / 256 :: (p.2.data.map Char.toNat ++ [255])

/-- Modelled from the spec: `hash128` (src/main.rs lines 256-261) calls
the external `siphasher` crate's `SipHasher13`, which is not part of this
repository; per the spec it is "a 128-bit order-sensitive hash of the
GlyphSet's full contents (keys and values, in the set's canonical
ascending-key order)".  We model it as a concrete deterministic 128-bit
digest of that serialized content. -/
def hash128 (gs : List (Nat × String)) : Nat :=
  (glyphSetHashInput gs).foldl
    (fun h b => (h * 1099511628211 + b + 1) % 2 ^ 128) 5381

/-- The 6-iteration letter loop of `subset_tag`: take `hash % 26` as a
letter offset from `A`, then divide the hash by 26. -/
def subsetLetters : Nat → Nat → List Char
  | 0, _ => []
  | n + 1, h => Char.ofNat (65 + h % 26) :: subsetLetters n (h / 26)

/-- `subset_tag` (src/main.rs lines 243-254). -/
def subset_tag (glyphs : List (Nat × String)) : String :=
  String.mk (subsetLetters 6 (hash128 glyphs))

theorem foldl_hashStep_lt (l : List Nat) :
    ∀ h : Nat, h < 2 ^ 128 →
      l.foldl (fun h b => (h * 1099511628211 + b + 1) % 2 ^ 128) h < 2 ^ 128 := by
  induction l with
  | nil => exact fun _ hh => hh
  | cons b rest ih => exact fun h _ => ih _ (Nat.mod_lt _ (by positivity))

theorem hash128_lt (gs : List (Nat × String)) : hash128 gs < 2 ^ 128 := by
  rw [hash128]
  exact foldl_hashStep_lt _ 5381 (by norm_num)

theorem subsetLetters_eq_map (n : Nat) :
    ∀ h, subsetLetters n h =
      (List.range n).map fun i => Char.ofNat (65 + h / 26 ^ i % 26) := by
  induction n with
  | zero => intro h; simp [subsetLetters]
  | succ n ih =>
    intro h
    rw [subsetLetters, List.range_succ_eq_map, List.map_cons, List.map_map,
      ih (h / 26)]
    refine congrArg₂ _ (by norm_num) (List.map_congr_left fun i _ => ?_)
    simp only [Function.comp]
    rw [Nat.div_div_eq_div_mul, ← pow_succ']

theorem toNat_charOfNat_of_lt {n : Nat} (h : n < 55296) :
    (Char.ofNat n).toNat = n := by
  have hv : n.isValidChar := Or.inl h
  rw [Char.ofNat, dif_pos hv]
  rfl

/-- C5: the subset tag is a 6-character string over `A`–`Z`, whose `i`-th
character is `A + (hash / 26^i % 26)` — i.e. 6 iterations of "append
`A + (hash mod 26)`, then divide the hash by 26", first computed digit
first — where the hash is a 128-bit digest of the glyph set's contents in
ascending-key order; equal glyph sets always yield identical tags. -/
theorem subset_tag_spec (g : List (Nat × String)) :
    (subset_tag g).length = 6 ∧
    (subset_tag g).data =
      (List.range 6).map (fun i => Char.ofNat (65 + hash128 g / 26 ^ i % 26)) ∧
    (∀ c ∈ (subset_tag g).data, 65 ≤ c.toNat ∧ c.toNat ≤ 90) ∧
    hash128 g < 2 ^ 128 ∧
    ∀ g', g = g' → subset_tag g = subset_tag g' := by
  have hdata : (subset_tag g).data =
      (List.range 6).map fun i => Char.ofNat (65 + hash128 g / 26 ^ i % 26) := by
    rw [subset_tag, subsetLetters_eq_map]
  refine ⟨?_, hdata, fun c hc => ?_, hash128_lt g, fun g' hg => by rw [hg]⟩
  · rw [String.length, hdata, List.length_map, List.length_range]
  · rw [hdata] at hc
    rcases List.mem_map.mp hc with ⟨i, _, rfl⟩
    have hlt : hash128 g / 26 ^ i % 26 < 26 := Nat.mod_lt _ (by norm_num)
    rw [toNat_charOfNat_of_lt (by omega)]
    omega

/-- C5 witness: the tag of the glyph set `[(5, "A")]` has 6 characters. -/
theorem subset_tag_spec_witness : (subset_tag [(5, String.singleton 'A')]).length = 6 :=
  (subset_tag_spec [(5, String.singleton 'A')]).1

/-! ## Subsetting fallback and compression (src/main.rs lines 189-196)

```
let subsetted = subsetter::subset(&font_data, face.index, profile);
let mut subset_font_data = deflate(subsetted.as_deref().unwrap_or(&font_data));
```

`subsetter::subset` is the external subsetting collaborator, returning
`Option<Vec<u8>>`; `deflate` wraps the external `miniz_oxide` compressor.
Both are modelled as parameters: an optional subsetting result and an
arbitrary compression function over byte strings. -/

/-- `subsetted.as_deref().unwrap_or(&font_data)` (line 192): the bytes
chosen for embedding — the subsetted bytes when the collaborator
succeeds, the full original font bytes when it declines. -/
def embedded_font_bytes (subsetted : Option (List Nat)) (font_data : List Nat) :
    List Nat :=
  subsetted.getD font_data

/-- The embedded font stream contents (line 192): the chosen bytes passed
to the compression step. -/
def subset_font_data (deflate : List Nat → List Nat)
    (subsetted : Option (List Nat)) (font_data : List Nat) : List Nat :=
  deflate (embedded_font_bytes subsetted font_data)

/-- C9: when the subsetting collaborator declines, the pipeline embeds
the full original font bytes instead of failing; when it succeeds, the
subsetted bytes are embedded; in both cases the chosen bytes are passed
to the compression step. -/
theorem subsetting_fallback (deflate : List Nat → List Nat)
    (font_data : List Nat) :
    subset_font_data deflate none font_data = deflate font_data ∧
    ∀ b, subset_font_data deflate (some b) font_data = deflate b :=
  ⟨rfl, fun _ => rfl⟩

end PdfFontEmbed
